import Mathlib

/-
Verification development for lab2.py, a small formal-languages lab containing
(a) a CFG normalization pipeline (class CFG: remove_epsilon, remove_unit_productions,
remove_useless_symbols, transform) and (b) a PDA-to-CFG converter (class PDAtoCFG.convert).

Embedding conventions:
  * a Python string is a `List Char` (`Str`); iterating a string in Python visits its
    characters, and `symbol in some_set_of_strings` tests the one-character string `[c]`;
  * a Python dict is an insertion-ordered association list with unique keys (`Prods`);
    `d[k] = v` on an existing key keeps its position (`updateP`), `d[k]` is `lookupP`;
  * a Python set is used only for membership tests here, so it is kept as the list of
    its elements in discovery order;
  * fallible operations (`list.remove`, subscripting a dict) return `Option`: `none`
    models the ValueError / KeyError the Python code would raise;
  * the in-place mutation of the alternative lists performed by
    substitute_unit_productions (lines 79-81) is additionally modelled at the store
    level: the dict maps keys to list references (`Nat` indices into a store of lists),
    exactly as CPython dicts hold references to list objects.
-/

/-- Python strings, as their character sequences. -/
abbrev Str : Type := List Char

/-- A productions dict: insertion-ordered association list from nonterminal name to
its list of right-hand-side alternatives. -/
abbrev Prods : Type := List (Str × List Str)

/-- The key sequence of a productions dict, in insertion order. -/
def keys (p : Prods) : List Str := p.map Prod.fst

/-- Dict subscript `p[k]`: the value at the first (unique) matching key. -/
def lookupP : Prods → Str → Option (List Str)
  | [], _ => none
  | e :: rest, k => if e.1 = k then some e.2 else lookupP rest k

/-- Dict assignment `p[k] = v` on an existing key: replace the value in place,
keeping key order; a missing key leaves the dict unchanged (the code only ever
assigns to existing keys through this operation). -/
def updateP : Prods → Str → List Str → Prods
  | [], _, _ => []
  | e :: rest, k, v => if e.1 = k then (k, v) :: rest else e :: updateP rest k v

/-- The alternatives recorded for key `k`, defaulting to the empty list. -/
def valueAt (p : Prods) (k : Str) : List Str := (lookupP p k).getD []

/-- The epsilon marker character used by lab2.py. -/
def epsChar : Char := 'ε'

/-- The one-character Python string holding the epsilon marker. -/
def epsStr : Str := [epsChar]

/-- CFG.find_epsilon_productions (lab2.py lines 21-29): one literal scan collecting
every nonterminal that has the exact alternative "ε". No closure is taken. -/
def find_epsilon_productions (prods : Prods) : List Str :=
  (prods.filter (fun e => decide (epsStr ∈ e.2))).map Prod.fst

/-- CFG.generate_new_rules (lab2.py lines 45-54): for each position i of `rule` whose
character is (the name of) a recorded epsilon nonterminal, emit `rule` with exactly
that one position deleted (`rule[:i] + rule[i+1:]`). -/
def generate_new_rules (eps : List Str) (rule : Str) : List Str :=
  (List.range rule.length).filterMap fun i =>
    if [rule.getD i ' '] ∈ eps then some (rule.take i ++ rule.drop (i + 1)) else none

/-- CFG.remove_epsilon_productions (lab2.py lines 31-43): per nonterminal, keep the
non-"ε" alternatives, then append generate_new_rules for every alternative that
mentions a recorded epsilon nonterminal. -/
def remove_epsilon_productions (eps : List Str) (prods : Prods) : Prods :=
  prods.map fun e =>
    (e.1, e.2.filter (fun r => decide (r ≠ epsStr)) ++
      e.2.flatMap fun r =>
        if r.any (fun c => decide ([c] ∈ eps)) then generate_new_rules eps r else [])

/-- CFG.remove_epsilon (lab2.py lines 13-19): find_epsilon_productions then
remove_epsilon_productions. -/
def remove_epsilon (prods : Prods) : Prods :=
  remove_epsilon_productions (find_epsilon_productions prods) prods

/-- CFG.find_unit_productions (lab2.py lines 64-72): in dict order, record every pair
(A, B) such that B is an alternative of A and B is a declared nonterminal
(`self.non_terminals`, the key set captured at construction). -/
def find_unit_productions (nts : List Str) : Prods → List (Str × Str)
  | [] => []
  | e :: rest =>
    (e.2.filter (fun r => decide (r ∈ nts))).map (fun r => (e.1, r)) ++
      find_unit_productions nts rest

/-- One iteration of CFG.substitute_unit_productions (lab2.py lines 79-81):
`self.productions[A].remove(B)` then `self.productions[A].extend(self.productions[B])`,
where the extend reads B's list after the removal (the two are the same list object
when A = B). `none` models the KeyError / ValueError the Python statements can raise. -/
def substitute_step (prods : Prods) (pr : Str × Str) : Option Prods :=
  (lookupP prods pr.1).bind fun aRules =>
    if pr.2 ∈ aRules then
      (lookupP (updateP prods pr.1 (aRules.erase pr.2)) pr.2).bind fun bRules =>
        some (updateP (updateP prods pr.1 (aRules.erase pr.2)) pr.1
          (aRules.erase pr.2 ++ bRules))
    else none

/-- CFG.substitute_unit_productions (lab2.py lines 74-81): fold substitute_step over
the recorded unit pairs in order. -/
def substitute_unit_productions (prods : Prods) : List (Str × Str) → Option Prods
  | [] => some prods
  | u :: rest => (substitute_step prods u).bind fun p2 => substitute_unit_productions p2 rest

/-- CFG.remove_unit_productions (lab2.py lines 56-62): find_unit_productions then
substitute_unit_productions. -/
def remove_unit_productions (nts : List Str) (prods : Prods) : Option Prods :=
  substitute_unit_productions prods (find_unit_productions nts prods)

/-- Python str.islower() on a one-character string, over the character set this
development uses: ASCII lowercase letters and the Greek letter 'ε' are lowercase. -/
def isLowerPy (c : Char) : Bool := c.isLower || c == epsChar

/-- CFG.find_useful_symbols (lab2.py lines 91-99): one scan marking a nonterminal
useful when some alternative has every character either lowercase (text casing!) or
a declared nonterminal name. -/
def find_useful_symbols (nts : List Str) (prods : Prods) : List Str :=
  (prods.filter (fun e =>
    e.2.any fun r => r.all fun c => isLowerPy c || decide ([c] ∈ nts))).map Prod.fst

/-- CFG.remove_useless_symbols (lab2.py lines 83-89): keep exactly the keys marked by
find_useful_symbols. -/
def remove_useless_symbols (nts : List Str) (prods : Prods) : Prods :=
  prods.filter fun e => decide (e.1 ∈ find_useful_symbols nts prods)

/-- CFG.transform (lab2.py lines 101-109): remove_epsilon, then
remove_unit_productions, then remove_useless_symbols, with `self.non_terminals`
fixed at construction as the key set of the input dict. -/
def transform (prods : Prods) : Option Prods :=
  (remove_unit_productions (keys prods) (remove_epsilon prods)).map
    (remove_useless_symbols (keys prods))

/-- PDAtoCFG constructor data (lab2.py lines 112-124): the automaton's components,
with the transition dict mapping (state, input symbol, stack top) to the branches
(next state, pushed stack string). -/
structure PDAtoCFG where
  states : List Str
  input_alphabet : List Str
  stack_alphabet : List Str
  transitions : List ((Str × Str × Str) × List (Str × Str))
  start_state : Str
  start_symbol : Str
  final_state : Str

/-- PDAtoCFG.add_production (lab2.py lines 141-148): append `rhs` to the alternative
list of `lhs`, creating the key at the end on first use. -/
def add_production (prods : Prods) (lhs rhs : Str) : Prods :=
  match lookupP prods lhs with
  | some rs => updateP prods lhs (rs ++ [rhs])
  | none => prods ++ [(lhs, [rhs])]

/-- PDAtoCFG.convert (lab2.py lines 126-139): for each transition branch and each
i in 0..len(new_stack), add the production with left side the concatenation
current_state ++ stack_symbol ++ next_state and right side the input symbol
(empty for "ε") followed, when i < len(new_stack), by the concatenation
current_state ++ new_stack[:i] ++ next_state. -/
def convert (t : PDAtoCFG) : Prods :=
  t.transitions.foldl
    (fun acc tr =>
      tr.2.foldl
        (fun acc2 br =>
          (List.range (br.2.length + 1)).foldl
            (fun acc3 i =>
              add_production acc3 (tr.1.1 ++ tr.1.2.2 ++ br.1)
                ((if tr.1.2.1 = epsStr then [] else tr.1.2.1) ++
                  (if i < br.2.length then tr.1.1 ++ br.2.take i ++ br.1 else [])))
            acc2)
        acc)
    []

/-- Dereference a list reference in the store of list objects; CPython dicts hold
references to list objects, modelled as indices into this store. -/
def derefStore (store : List (List Str)) (r : Nat) : List Str := store.getD r []

/-- Lookup of the list reference a dict entry holds for a key. -/
def lookupRef : List (Str × Nat) → Str → Option Nat
  | [], _ => none
  | e :: rest, k => if e.1 = k then some e.2 else lookupRef rest k

/-- Store-level CFG.find_unit_productions: identical scan, reading each key's
alternatives through its list reference. -/
def find_unit_productions_s (nts : List Str) (store : List (List Str)) :
    List (Str × Nat) → List (Str × Str)
  | [] => []
  | e :: rest =>
    ((derefStore store e.2).filter (fun r => decide (r ∈ nts))).map (fun r => (e.1, r)) ++
      find_unit_productions_s nts store rest

/-- Store-level substitute_step (lab2.py lines 79-81): `remove` and `extend` write
through A's list reference; the dict itself (the key-to-reference map) never changes,
only the referenced list objects do. -/
def substitute_step_s (refs : List (Str × Nat)) (store : List (List Str))
    (pr : Str × Str) : Option (List (List Str)) :=
  match lookupRef refs pr.1 with
  | none => none
  | some rA =>
    if pr.2 ∈ derefStore store rA then
      match lookupRef refs pr.2 with
      | none => none
      | some rB =>
        some ((store.set rA ((derefStore store rA).erase pr.2)).set rA
          (derefStore (store.set rA ((derefStore store rA).erase pr.2)) rA ++
            derefStore (store.set rA ((derefStore store rA).erase pr.2)) rB))
    else none

/-- Store-level CFG.substitute_unit_productions: fold the store through the steps. -/
def substitute_unit_productions_s (refs : List (Str × Nat)) (store : List (List Str)) :
    List (Str × Str) → Option (List (List Str))
  | [] => some store
  | u :: rest =>
    (substitute_step_s refs store u).bind fun s2 =>
      substitute_unit_productions_s refs s2 rest

/-- Store-level CFG.remove_unit_productions. -/
def remove_unit_productions_s (nts : List Str) (refs : List (Str × Nat))
    (store : List (List Str)) : Option (List (List Str)) :=
  substitute_unit_productions_s refs store (find_unit_productions_s nts store refs)

/-- Invariant carried through substitute_unit_productions: every pending unit pair
(A, B) has both components among the dict keys, and B occurs in A's current
alternative list at least as often as (A, B) is still pending. -/
def UnitInv (prods : Prods) (pend : List (Str × Str)) : Prop :=
  ∀ pr ∈ pend, pr.1 ∈ keys prods ∧ pr.2 ∈ keys prods ∧
    pend.count pr ≤ (valueAt prods pr.1).count pr.2

/-- Test grammar A -> B C, B -> ε, C -> ε from the spec's nullability-closure property. -/
def gNullable : Prods := [(['A'], [['B', 'C']]), (['B'], [['ε']]), (['C'], [['ε']])]

/-- Test grammar A -> B B, B -> ε, exercising duplicate generated alternatives. -/
def gTwin : Prods := [(['A'], [['B', 'B']]), (['B'], [['ε']])]

/-- Test grammar S -> A, A -> B, B -> ε; start symbol is the first key S. -/
def gChainEps : Prods := [(['S'], [['A']]), (['A'], [['B']]), (['B'], [['ε']])]

/-- Test grammar A -> B, B -> C, C -> d from the spec's unit-closure property. -/
def gUnitChain : Prods := [(['A'], [['B']]), (['B'], [['C']]), (['C'], [['d']])]

/-- Test grammar with start S, X reachable but non-generating (X -> X X only), and
Y generating (Y -> b) but unreachable from S. -/
def gUseless : Prods := [(['S'], [['a'], ['X']]), (['X'], [['X', 'X']]), (['Y'], [['b']])]

/-- Test automaton with states q0, q1 and the single transition
(q0, a, X) -> (q1, Y), a push of exactly one symbol. -/
def pdaSinglePush : PDAtoCFG where
  states := [['q', '0'], ['q', '1']]
  input_alphabet := [['a']]
  stack_alphabet := [['X'], ['Y']]
  transitions := [(((['q', '0'] : Str), (['a'] : Str), (['X'] : Str)),
    [((['q', '1'] : Str), (['Y'] : Str))])]
  start_state := ['q', '0']
  start_symbol := ['X']
  final_state := ['q', '1']

theorem keys_updateP (p : Prods) (k : Str) (v : List Str) : keys (updateP p k v) = keys p := by
  induction p with
  | nil => rfl
  | cons e rest ih =>
    by_cases h : e.1 = k
    · simp [updateP, h, keys]
    · simp only [updateP, if_neg h, keys, List.map_cons]
      simpa [keys] using ih

theorem lookupP_eq_some (p : Prods) (k : Str) (h : k ∈ keys p) :
    lookupP p k = some (valueAt p k) := by
  induction p with
  | nil => simp [keys] at h
  | cons e rest ih =>
    by_cases he : e.1 = k
    · simp [lookupP, valueAt, he]
    · have hk : k ∈ keys rest := by
        rcases (by simpa [keys] using h : k = e.1 ∨ k ∈ keys rest) with h1 | h1
        · exact absurd h1.symm he
        · exact h1
      simpa [lookupP, valueAt, he] using ih hk

theorem lookupP_updateP_ne (p : Prods) {k k2 : Str} (v : List Str) (h : k2 ≠ k) :
    lookupP (updateP p k v) k2 = lookupP p k2 := by
  have hkk : ¬ (k = k2) := fun hh => h hh.symm
  induction p with
  | nil => rfl
  | cons e rest ih =>
    by_cases he : e.1 = k
    · simp [updateP, he, lookupP, hkk]
    · by_cases he2 : e.1 = k2
      · simp [updateP, he, lookupP, he2, h]
      · simp only [updateP, if_neg he, lookupP, if_neg he2]
        exact ih

theorem valueAt_updateP_ne (p : Prods) {k k2 : Str} (v : List Str) (h : k2 ≠ k) :
    valueAt (updateP p k v) k2 = valueAt p k2 := by
  simp [valueAt, lookupP_updateP_ne p v h]

theorem valueAt_updateP_self (p : Prods) {k : Str} (v : List Str) (h : k ∈ keys p) :
    valueAt (updateP p k v) k = v := by
  induction p with
  | nil => simp [keys] at h
  | cons e rest ih =>
    by_cases he : e.1 = k
    · simp [updateP, he, valueAt, lookupP]
    · have hk : k ∈ keys rest := by
        rcases (by simpa [keys] using h : k = e.1 ∨ k ∈ keys rest) with h1 | h1
        · exact absurd h1.symm he
        · exact h1
      simpa [updateP, if_neg he, valueAt, lookupP, he] using ih hk

theorem substitute_total :
    ∀ (pend : List (Str × Str)) (prods : Prods), UnitInv prods pend →
      (substitute_unit_productions prods pend).isSome := by
  intro pend
  induction pend with
  | nil =>
    intro prods _
    simp [substitute_unit_productions]
  | cons u rest ih =>
    intro prods hInv
    obtain ⟨hA, hB, hcnt⟩ := hInv u (List.mem_cons_self u rest)
    have hlk : lookupP prods u.1 = some (valueAt prods u.1) := lookupP_eq_some _ _ hA
    have hmem : u.2 ∈ valueAt prods u.1 := by
      have h1 : 0 < (u :: rest).count u := by
        rw [List.count_cons_self]
        omega
      exact List.count_pos_iff.mp (lt_of_lt_of_le h1 hcnt)
    set aR := valueAt prods u.1 with haR
    have hkeys1 : keys (updateP prods u.1 (aR.erase u.2)) = keys prods :=
      keys_updateP _ _ _
    have hB1 : u.2 ∈ keys (updateP prods u.1 (aR.erase u.2)) := by
      rw [hkeys1]
      exact hB
    have hlk2 : lookupP (updateP prods u.1 (aR.erase u.2)) u.2 =
        some (valueAt (updateP prods u.1 (aR.erase u.2)) u.2) :=
      lookupP_eq_some _ _ hB1
    set bR := valueAt (updateP prods u.1 (aR.erase u.2)) u.2 with hbR
    set prods2 := updateP (updateP prods u.1 (aR.erase u.2)) u.1 (aR.erase u.2 ++ bR)
      with hprods2
    have hstep : substitute_step prods u = some prods2 := by
      simp only [substitute_step, hlk, Option.some_bind]
      rw [if_pos hmem]
      simp only [hlk2, Option.some_bind]
    simp only [substitute_unit_productions, hstep, Option.some_bind]
    apply ih
    intro pr hpr
    obtain ⟨p1, p2, p3⟩ := hInv pr (List.mem_cons_of_mem u hpr)
    have hkeys2 : keys prods2 = keys prods := by
      rw [hprods2, keys_updateP, keys_updateP]
    refine ⟨by rw [hkeys2]; exact p1, by rw [hkeys2]; exact p2, ?_⟩
    by_cases hc : pr.1 = u.1
    · have hval : valueAt prods2 pr.1 = aR.erase u.2 ++ bR := by
        rw [hprods2, hc]
        exact valueAt_updateP_self _ _ (by rw [hkeys1]; exact hA)
      rw [hval, List.count_append]
      have p3a : (u :: rest).count pr ≤ aR.count pr.2 := by
        rw [haR, ← hc]
        exact p3
      by_cases hd : pr.2 = u.2
      · have hpru : pr = u := Prod.ext hc hd
        rw [hd, List.count_erase_self]
        have h4 : (u :: rest).count u = rest.count u + 1 := List.count_cons_self u rest
        have h5 : rest.count pr = rest.count u := by rw [hpru]
        have h6 : (u :: rest).count pr = (u :: rest).count u := by rw [hpru]
        rw [hd] at p3a
        omega
      · have hne : pr ≠ u := fun he => hd (by rw [he])
        rw [List.count_erase_of_ne hd]
        have h5 : (u :: rest).count pr = rest.count pr := List.count_cons_of_ne hne rest
        omega
    · have hne : pr ≠ u := fun he => hc (by rw [he])
      have hval : valueAt prods2 pr.1 = valueAt prods pr.1 := by
        rw [hprods2, valueAt_updateP_ne _ _ hc, valueAt_updateP_ne _ _ hc]
      rw [hval]
      have h5 : (u :: rest).count pr = rest.count pr := List.count_cons_of_ne hne rest
      omega

theorem mem_find_unit {nts : List Str} :
    ∀ {prods : Prods} {pr : Str × Str}, pr ∈ find_unit_productions nts prods →
      pr.1 ∈ keys prods ∧ pr.2 ∈ nts := by
  intro prods
  induction prods with
  | nil =>
    intro pr h
    simp [find_unit_productions] at h
  | cons e rest ih =>
    intro pr h
    have h2 : (∃ a, (a ∈ e.2 ∧ a ∈ nts) ∧ (e.1, a) = pr) ∨
        pr ∈ find_unit_productions nts rest := by
      simpa [find_unit_productions] using h
    have hkeys : keys (e :: rest) = e.1 :: keys rest := rfl
    rcases h2 with ⟨r, ⟨_, hrnts⟩, hpr⟩ | h1
    · constructor
      · rw [← hpr, hkeys]
        exact List.mem_cons_self _ _
      · rw [← hpr]
        exact hrnts
    · obtain ⟨ha, hb⟩ := ih h1
      refine ⟨?_, hb⟩
      rw [hkeys]
      exact List.mem_cons_of_mem _ ha

theorem count_map_pair (a b : Str) (l : List Str) :
    (l.map (fun r => (a, r))).count (a, b) = l.count b := by
  induction l with
  | nil => rfl
  | cons x xs ih =>
    simp only [List.map_cons, List.count_cons, ih]
    by_cases hxb : x = b
    · simp [hxb]
    · simp [hxb, Prod.ext_iff]

theorem count_find_unit {nts : List Str} :
    ∀ {prods : Prods}, (keys prods).Nodup → ∀ (pr : Str × Str),
      (find_unit_productions nts prods).count pr ≤ (valueAt prods pr.1).count pr.2 := by
  intro prods
  induction prods with
  | nil =>
    intro _ pr
    simp [find_unit_productions]
  | cons e rest ih =>
    intro hnd pr
    obtain ⟨pa, pb⟩ := pr
    have hpair : e.1 ∉ keys rest ∧ (keys rest).Nodup := by
      have h2 : (e.1 :: keys rest).Nodup := by simpa [keys] using hnd
      exact List.nodup_cons.mp h2
    rw [show find_unit_productions nts (e :: rest) =
      (e.2.filter (fun r => decide (r ∈ nts))).map (fun r => (e.1, r)) ++
        find_unit_productions nts rest from rfl, List.count_append]
    by_cases hc : pa = e.1
    · subst hc
      have hz : (find_unit_productions nts rest).count (e.1, pb) = 0 := by
        rw [List.count_eq_zero]
        intro hmem
        exact hpair.1 (mem_find_unit hmem).1
      have hfst :
          ((e.2.filter (fun r => decide (r ∈ nts))).map (fun r => (e.1, r))).count (e.1, pb) =
            (e.2.filter (fun r => decide (r ∈ nts))).count pb := count_map_pair _ _ _
      have hsub : (e.2.filter (fun r => decide (r ∈ nts))).count pb ≤ e.2.count pb :=
        (List.filter_sublist e.2).count_le pb
      have hval2 : valueAt (e :: rest) e.1 = e.2 := by
        simp [valueAt, lookupP]
      rw [hz, hfst, hval2]
      have hproj : List.count ((e.1, pb).2 : Str) e.2 = List.count pb e.2 := rfl
      rw [hproj]
      omega
    · have hz1 :
          ((e.2.filter (fun r => decide (r ∈ nts))).map (fun r => (e.1, r))).count (pa, pb) = 0 := by
        rw [List.count_eq_zero]
        intro hmem
        rcases List.mem_map.mp hmem with ⟨r, _, hr⟩
        have h3 : e.1 = pa := congrArg Prod.fst hr
        exact hc h3.symm
      have hne : ¬ (e.1 = pa) := fun hh => hc hh.symm
      have hval : valueAt (e :: rest) pa = valueAt rest pa := by
        simp [valueAt, lookupP, hne]
      rw [hz1, hval]
      simpa using ih hpair.2 (pa, pb)

/-- C1: refuted on the code. find_epsilon_productions is a single literal scan: on the
grammar A -> B C, B -> ε, C -> ε it returns exactly {B, C} and omits A, even though
A's alternative B C consists entirely of members of the returned set, so the computed
set is not closed under the claimed rule and A is never treated as nullable. -/
theorem claim1_nullable_single_scan :
    find_epsilon_productions gNullable = [['B'], ['C']] ∧
      ['A'] ∉ find_epsilon_productions gNullable ∧
      ['B'] ∈ find_epsilon_productions gNullable ∧
      ['C'] ∈ find_epsilon_productions gNullable ∧
      remove_epsilon gNullable =
        [(['A'], [['B', 'C'], ['C'], ['B']]), (['B'], []), (['C'], [])] := by
  refine ⟨by decide, by decide, by decide, by decide, by decide⟩

/-- C2: refuted on the code. For the single transition (q0, a, X) -> (q1, Y), a push
of k = 1 symbol, convert emits only the two productions q0Xq1 -> a q0 q1 and
q0Xq1 -> a built by string concatenation from the transition's own states: there is
no production for the landing state q0 (no key q0Xq0 exists at all) and the
claimed right-hand side a [q1, Y, q1] (concatenated: a q1 Y q1) is never emitted,
so the enumeration over all intermediate/final states does not happen. -/
theorem claim2_convert_no_enumeration :
    convert pdaSinglePush =
        [(['q', '0', 'X', 'q', '1'], [['a', 'q', '0', 'q', '1'], ['a']])] ∧
      lookupP (convert pdaSinglePush) ['q', '0', 'X', 'q', '0'] = none ∧
      ['a', 'q', '1', 'Y', 'q', '1'] ∉ valueAt (convert pdaSinglePush)
        ['q', '0', 'X', 'q', '1'] := by
  refine ⟨by decide, by decide, by decide⟩

/-- C3: refuted on the code. On the grammar S -> a | X, X -> X X, Y -> b (start S),
the pruning stage keeps the whole grammar: X is reachable but non-generating and Y is
generating but unreachable, yet both survive, because find_useful_symbols is a single
casing-based scan (str.islower) with no generating fixpoint and no reachability pass. -/
theorem claim3_useless_pruning_keeps_both :
    remove_useless_symbols (keys gUseless) gUseless = gUseless ∧
      ['X'] ∈ keys (remove_useless_symbols (keys gUseless) gUseless) ∧
      ['Y'] ∈ keys (remove_useless_symbols (keys gUseless) gUseless) := by
  refine ⟨by decide, by decide, by decide⟩

/-- C4: refuted on the code. On A -> B, B -> C, C -> d the unit eliminator performs a
single substitution pass over the recorded pairs (A, B), (B, C): the result maps A to
the single alternative C (a unit production), not to d, so the reflexive-transitive
closure is not resolved in one call and a single-nonterminal alternative remains. -/
theorem claim4_unit_not_transitive :
    remove_unit_productions (keys gUnitChain) gUnitChain =
        some [(['A'], [['C']]), (['B'], [['d']]), (['C'], [['d']])] ∧
      ['d'] ∉ valueAt [(['A'], [['C']]), (['B'], [['d']]), (['C'], [['d']])] ['A'] ∧
      ['C'] ∈ valueAt [(['A'], [['C']]), (['B'], [['d']]), (['C'], [['d']])] ['A'] ∧
      ['C'] ∈ keys gUnitChain := by
  refine ⟨by decide, by decide, by decide, by decide⟩

/-- C5: refuted on the code. generate_new_rules emits only single-position deletions:
for the alternative B C with both B and C nullable it yields exactly the two variants
C and B and never the empty variant obtained by deleting the two-position subset; and
on A -> B B, B -> ε the two generated copies of B are kept without deduplication. -/
theorem claim5_single_deletions_only :
    generate_new_rules (find_epsilon_productions gNullable) ['B', 'C'] = [['C'], ['B']] ∧
      ([] : Str) ∉ generate_new_rules (find_epsilon_productions gNullable) ['B', 'C'] ∧
      remove_epsilon gTwin = [(['A'], [['B', 'B'], ['B'], ['B']]), (['B'], [])] ∧
      (valueAt (remove_epsilon gTwin) ['A']).count ['B'] = 2 := by
  refine ⟨by decide, by decide, by decide, by decide⟩

/-- C6: refuted on the code. On S -> A, A -> B, B -> ε (start symbol S, the first
key), the epsilon-elimination stage gives A the empty alternative (generate_new_rules
deletes B from the one-symbol alternative B, leaving the empty string), and the empty
alternative on the non-start nonterminal A survives the full transform pipeline. -/
theorem claim6_empty_alternative_emitted :
    remove_epsilon gChainEps = [(['S'], [['A']]), (['A'], [['B'], []]), (['B'], [])] ∧
      ([] : Str) ∈ valueAt (remove_epsilon gChainEps) ['A'] ∧
      transform gChainEps = some [(['S'], [['B'], []]), (['A'], [[]])] ∧
      ([] : Str) ∈ valueAt [(['S'], [['B'], []]), (['A'], [[]])] ['A'] ∧
      (keys gChainEps).head? = some ['S'] ∧ (['A'] : Str) ≠ ['S'] := by
  refine ⟨by decide, by decide, by decide, by decide, by decide, by decide⟩

/-- C7: refuted on the code. On A -> B, B -> C, C -> d, the first transform leaves
A -> C; running transform again on that result substitutes the remaining unit and
yields A -> d, so the two outputs differ even as sets of alternatives per nonterminal
and transform is not idempotent. -/
theorem claim7_transform_not_idempotent :
    transform gUnitChain = some [(['A'], [['C']]), (['B'], [['d']]), (['C'], [['d']])] ∧
      transform [(['A'], [['C']]), (['B'], [['d']]), (['C'], [['d']])] =
        some [(['A'], [['d']]), (['B'], [['d']]), (['C'], [['d']])] ∧
      ['C'] ∈ valueAt [(['A'], [['C']]), (['B'], [['d']]), (['C'], [['d']])] ['A'] ∧
      ['C'] ∉ valueAt [(['A'], [['d']]), (['B'], [['d']]), (['C'], [['d']])] ['A'] := by
  refine ⟨by decide, by decide, by decide, by decide⟩

/-- C8: refuted on the code, at the store level. Starting from the dict {A: r0, B: r1}
over the store r0 = [B], r1 = [c], the unit stage rewrites the list object r0 that
the input grammar holds for A from [B] to [c]: the stage mutates the grammar value it
received in place instead of producing a new one. -/
theorem claim8_unit_stage_mutates_store :
    remove_unit_productions_s [['A'], ['B']] [(['A'], 0), (['B'], 1)] [[['B']], [['c']]] =
        some [[['c']], [['c']]] ∧
      derefStore [[['B']], [['c']]] 0 = [['B']] ∧
      derefStore [[['c']], [['c']]] 0 ≠ derefStore [[['B']], [['c']]] 0 := by
  refine ⟨by decide, by decide, by decide⟩

/-- C9: refuted on the code. The grammar S -> A references the undeclared nonterminal
A (the uppercase symbol A is not among the keys), yet construction performs no
validation and the full pipeline returns successfully with output {} instead of
failing with an UndefinedSymbol error: nothing is detected eagerly and the call
produces (silently pruned) output. -/
theorem claim9_no_validation :
    transform [(['S'], [['A']])] = some [] ∧
      (['A'] : Str) ∉ keys [(['S'], [['A']])] := by
  refine ⟨by decide, by decide⟩

/-- C10: confirmed. On any productions dict (keys unique, as Python dicts guarantee),
with the declared nonterminal set taken as the dict's keys, the unit-production
elimination stage (find_unit_productions then substitute_unit_productions) is total:
every recorded pair (A, B) has B among the keys, and B still occurs in A's alternative
list whenever its removal is executed, so no dict lookup or list removal ever fails,
including with duplicate unit alternatives and self-units A -> A. -/
theorem claim10_unit_stage_total (prods : Prods) (h : (keys prods).Nodup) :
    (remove_unit_productions (keys prods) prods).isSome := by
  unfold remove_unit_productions
  refine substitute_total _ _ ?_
  intro pr hpr
  obtain ⟨h1, h2⟩ := mem_find_unit hpr
  exact ⟨h1, h2, count_find_unit h pr⟩

/-- Witness for claim10_unit_stage_total: a grammar with a self-unit A -> A and a
duplicated unit alternative B, namely A -> A | B | B, B -> b. -/
theorem claim10_unit_stage_total_witness :
    (keys [((['A'] : Str), [['A'], ['B'], ['B']]), (['B'], [['b']])]).Nodup ∧
      (remove_unit_productions
        (keys [((['A'] : Str), [['A'], ['B'], ['B']]), (['B'], [['b']])])
        [((['A'] : Str), [['A'], ['B'], ['B']]), (['B'], [['b']])]).isSome :=
  ⟨by decide, claim10_unit_stage_total _ (by decide)⟩
